import Mathlib

/-!
Shallow embedding of the delimited, escape-aware name abstraction of the
adap-names repository (TypeScript).  Strings are modelled as `List Char`;
JavaScript string indexing/scanning loops become structural recursion on the
character list.  The delimiter is modelled as a `Char`, which carries the
"exactly one character" part of the delimiter invariant in the type.
Fallible operations (the contract layer raises `IllegalArgumentException`,
`MethodFailedException`, `InvalidStateException`) are modelled with `Except`
over a three-tag error type.

Source files embedded:
- src/adap-b06/names/AbstractName.ts  (doMask, doUnmask,
  assertComponentProperlyMasked, the public contract-wrapped operations)
- src/adap-b06/names/StringName.ts    (flat-string representation, bundled in
  the same source file: parseComponents, doAppend, doInsert, ...)
- the value-type StringArrayName      (src/unnamed/part_003)
- src/adap-b03/names/StringArrayName.ts plus the mutable AbstractName
  (src/unnamed/part_001) for the mutable-variant claims
- src/adap-b02/names/StringName.ts    (mutable flat-string variant)
-/

/-- ESCAPE_CHARACTER from Printable.ts: the fixed escape character, a backslash. -/
def escapeCharacter : Char := '\\'

/-- DEFAULT_DELIMITER from Printable.ts: the canonical delimiter, a dot. -/
def defaultDelimiter : Char := '.'

/-- AbstractName.doMask (adap-b06 AbstractName.ts, lines 499-516): for each
character of the raw component, prefix the delimiter and the escape character
with the escape character; copy every other character verbatim. -/
def doMask (d : Char) : List Char → List Char
  | [] => []
  | ch :: rest =>
    if ch = d ∨ ch = escapeCharacter then escapeCharacter :: ch :: doMask d rest
    else ch :: doMask d rest

/-- AbstractName.doUnmask (adap-b06 AbstractName.ts, lines 481-497): scan left
to right; an escape character that still has a following character emits only
that following character and advances two positions; any other character
(including a trailing lone escape character) is emitted and the scan advances
one position. -/
def doUnmask : List Char → List Char
  | [] => []
  | [a] => [a]
  | a :: b :: rest =>
    if a = escapeCharacter then b :: doUnmask rest
    else a :: doUnmask (b :: rest)

/-- AbstractName.assertComponentProperlyMasked (adap-b06 AbstractName.ts,
lines 385-402) as a Boolean: scanning left to right, an escape character at
the last position is a defect, an unescaped occurrence of the delimiter is a
defect, and an escape character followed by any character is consumed as a
pair. -/
def properlyMasked (d : Char) : List Char → Bool
  | [] => true
  | [a] => if a = escapeCharacter then false else if a = d then false else true
  | a :: b :: rest =>
    if a = escapeCharacter then properlyMasked d rest
    else if a = d then false
    else properlyMasked d (b :: rest)

/-- Helper describing the same pairing scan: does the string end in a lone
(unpaired) escape character?  Used to state which flat strings end "escaped". -/
def endsWithLoneEscape : List Char → Bool
  | [] => false
  | [a] => a = escapeCharacter
  | a :: b :: rest =>
    if a = escapeCharacter then endsWithLoneEscape rest
    else endsWithLoneEscape (b :: rest)

/-- Prepends to the first component of a non-empty component list; the
functional rendering of the tokenizer's mutable component buffer. -/
def mapHead (f : List Char → List Char) : List (List Char) → List (List Char)
  | [] => []
  | h :: t => f h :: t

/-- The loop of StringName.parseComponents (adap-b06 AbstractName.ts file,
lines 655-679) run on a non-empty remainder with an empty current buffer:
an escape character that still has a following character is copied as a
two-character unit into the current component; an unescaped delimiter flushes
the current component; end of input flushes the final buffer unconditionally. -/
def parseAux (d : Char) : List Char → List (List Char)
  | [] => [[]]
  | [a] => if a = d then [[], []] else [[a]]
  | a :: b :: rest =>
    if a = escapeCharacter then mapHead (fun t => a :: b :: t) (parseAux d rest)
    else if a = d then [] :: parseAux d (b :: rest)
    else mapHead (fun t => a :: t) (parseAux d (b :: rest))

/-- StringName.parseComponents including its empty-input special case: the
empty flat string yields the empty component list. -/
def parse (d : Char) (s : List Char) : List (List Char) :=
  if s = [] then [] else parseAux d s

/-- Array.prototype.join with a one-character separator, as used by
doSetComponent / doInsert / doRemove of the flat-string representation. -/
def joinD (d : Char) : List (List Char) → List Char
  | [] => []
  | [c] => c
  | c :: c2 :: rest => c ++ d :: joinD d (c2 :: rest)

/-- Decomposition of a string into the blocks visited by the pairing scan:
an escape character with a following character forms a two-character block,
any other character a one-character block. -/
def maskBlocks : List Char → List (List Char)
  | [] => []
  | [a] => [[a]]
  | a :: b :: rest =>
    if a = escapeCharacter then [a, b] :: maskBlocks rest
    else [a] :: maskBlocks (b :: rest)

/-- The contribution of one scan block to doUnmask's output: a two-character
escape block loses its leading escape character, every other block is kept. -/
def blockImage : List Char → List Char
  | [a, b] => if a = escapeCharacter then [b] else [a, b]
  | b => b

/-- A strengthening of properlyMasked used to amend the mask/unmask
idempotence claim: every escape pair escapes only the delimiter or the escape
character itself (exactly the pairs doMask can produce). -/
def canonicallyMasked (d : Char) : List Char → Bool
  | [] => true
  | [a] => if a = escapeCharacter then false else if a = d then false else true
  | a :: b :: rest =>
    if a = escapeCharacter then (decide (b = d) || decide (b = escapeCharacter)) && canonicallyMasked d rest
    else if a = d then false
    else canonicallyMasked d (b :: rest)

/-- Inductive characterization of properly masked components: empty, an escape
pair followed by a properly masked remainder, or a character that is neither
the escape character nor the delimiter followed by a properly masked
remainder. -/
inductive Masked (d : Char) : List Char → Prop
  | nil : Masked d []
  | pair (x : Char) {rest : List Char} (h : Masked d rest) :
      Masked d (escapeCharacter :: x :: rest)
  | single {a : Char} {rest : List Char} (ha : a ≠ escapeCharacter) (hd : a ≠ d)
      (h : Masked d rest) : Masked d (a :: rest)

/-- The three failure tiers of the contract layer: IllegalArgumentException
(precondition), MethodFailedException (postcondition), InvalidStateException
(class invariant). -/
inductive NameErr where
  | illegalArgument : NameErr
  | methodFailed : NameErr
  | invalidState : NameErr
deriving DecidableEq

/-- A Name seen through its public query interface: delimiter character plus
encoded component sequence.  Used for arguments of isEqual and concat and as
the observable view of a representation. -/
abbrev NameView := Char × List (List Char)

/-- JavaScript components[i] = c on a component array (only used at valid
indices; out-of-range writes are never reached behind the contract layer). -/
def setAt : List (List Char) → Nat → List Char → List (List Char)
  | [], _, _ => []
  | _ :: t, 0, c => c :: t
  | h :: t, Nat.succ i, c => h :: setAt t i c

/-- JavaScript components.splice(i, 0, c): insert at index i (clamped to the
end, matching splice; only used with i less than or equal to the length). -/
def insertAt : List (List Char) → Nat → List Char → List (List Char)
  | l, 0, c => c :: l
  | [], Nat.succ _, c => [c]
  | h :: t, Nat.succ i, c => h :: insertAt t i c

/-- JavaScript components.splice(i, 1): remove the element at index i. -/
def removeAt : List (List Char) → Nat → List (List Char)
  | [], _ => []
  | _ :: t, 0 => t
  | h :: t, Nat.succ i => h :: removeAt t i

/-- AbstractName.assertIsValidIndex (adap-b06, lines 408-420): an empty
collection admits no index unless insert-at-end is allowed; otherwise the
index must be at most count (insert) or count minus one (read/set/remove).
The lower bound zero is carried by the Nat type of the index. -/
def validIndexB06 (count i : Nat) (allowEnd : Bool) : Bool :=
  if count = 0 && !allowEnd then false
  else decide (i ≤ if allowEnd then count else count - 1)

/-- AbstractName.isEqual (adap-b06, lines 99-122): equal component counts,
equal delimiter characters, and componentwise-identical encoded components. -/
def isEqualName (d1 : Char) (cs1 : List (List Char)) (d2 : Char)
    (cs2 : List (List Char)) : Bool :=
  if cs1.length ≠ cs2.length then false
  else if d1 ≠ d2 then false
  else (List.range cs1.length).all (fun i => cs1.getD i [] == cs2.getD i [])

/-- AbstractName.asDataString (adap-b06, lines 68-93): with the default
delimiter the encoded components are joined directly; with any other stored
delimiter every component is unmasked and re-masked for the default delimiter
before joining. -/
def canonical (d : Char) (cs : List (List Char)) : List Char :=
  if d = defaultDelimiter then joinD defaultDelimiter cs
  else joinD defaultDelimiter (cs.map (fun c => doMask defaultDelimiter (doUnmask c)))

/-- The value-type StringArrayName (src/unnamed/part_003): delimiter plus a
literal component array. -/
structure ArrayName where
  delimiter : Char
  components : List (List Char)
deriving DecidableEq

/-- The value-type StringName (adap-b06 StringName): delimiter, flat encoded
string, and the cached component count computed at construction. -/
structure StrName where
  delimiter : Char
  name : List Char
  noComponents : Nat
deriving DecidableEq

/-- StringArrayName constructor (part_003, lines 8-36): the super constructor
validates the delimiter, initialize rejects an empty source array and
improperly masked components, and a defensive copy is stored. -/
def mkArrayName (source : List (List Char)) (d : Char) : Except NameErr ArrayName :=
  if d = escapeCharacter then .error .illegalArgument
  else if source.length = 0 then .error .illegalArgument
  else if source.all (fun c => properlyMasked d c) then .ok ⟨d, source⟩
  else .error .illegalArgument

/-- StringName constructor (adap-b06 StringName, lines 527-558): the super
constructor validates the delimiter; initialize stores the flat string,
counts its parsed components, rejects a zero-component result unless the
source is the empty string (the designated root case), and checks every
parsed component for proper masking. -/
def mkStrName (source : List Char) (d : Char) : Except NameErr StrName :=
  if d = escapeCharacter then .error .illegalArgument
  else if (parse d source).length = 0 ∧ source ≠ [] then .error .illegalArgument
  else if (parse d source).all (fun c => properlyMasked d c) then
    .ok ⟨d, source, (parse d source).length⟩
  else .error .illegalArgument

def ArrayName.getNoComponents (n : ArrayName) : Nat := n.components.length

def ArrayName.doGetComponent (n : ArrayName) (i : Nat) : List Char :=
  n.components.getD i []

def ArrayName.isEmpty (n : ArrayName) : Bool := decide (n.getNoComponents = 0)

def ArrayName.getComponent (n : ArrayName) (i : Nat) : Except NameErr (List Char) :=
  if validIndexB06 n.getNoComponents i false then .ok (n.doGetComponent i)
  else .error .illegalArgument

def ArrayName.view (n : ArrayName) : NameView := (n.delimiter, n.components)

def ArrayName.asString (n : ArrayName) (d2 : Char) : Except NameErr (List Char) :=
  if d2 = escapeCharacter then .error .illegalArgument
  else .ok (joinD d2 (n.components.map doUnmask))

def ArrayName.asDataString (n : ArrayName) : List Char :=
  canonical n.delimiter n.components

def ArrayName.isEqual (n : ArrayName) (v : NameView) : Bool :=
  isEqualName n.delimiter n.components v.1 v.2

/-- AbstractName.clone (adap-b06, lines 28-40) over the array representation:
doClone reconstructs from the stored components, then the postcondition
demands the clone be isEqual to the original. -/
def ArrayName.clone (n : ArrayName) : Except NameErr ArrayName :=
  match mkArrayName n.components n.delimiter with
  | .error e => .error e
  | .ok cloned =>
    if isEqualName cloned.delimiter cloned.components n.delimiter n.components then
      .ok cloned
    else .error .methodFailed

/-- AbstractName.setComponent (adap-b06, lines 180-204) over the array
representation: preconditions (valid index, properly masked component), then
doSetComponent builds a new instance through the constructor, then the
postconditions probe the new instance via its public getComponent. -/
def ArrayName.setComponent (n : ArrayName) (i : Nat) (c : List Char) :
    Except NameErr ArrayName :=
  if validIndexB06 n.getNoComponents i false = false then .error .illegalArgument
  else if properlyMasked n.delimiter c = false then .error .illegalArgument
  else
    match mkArrayName (setAt n.components i c) n.delimiter with
    | .error e => .error e
    | .ok newName =>
      match newName.getComponent i with
      | .error e => .error e
      | .ok got =>
        if got = c then
          if newName.getNoComponents = n.getNoComponents then .ok newName
          else .error .methodFailed
        else .error .methodFailed

/-- AbstractName.insert (adap-b06, lines 220-246) over the array
representation; insert-at-end is legal, and the postconditions check the
count first and then probe the inserted component. -/
def ArrayName.insert (n : ArrayName) (i : Nat) (c : List Char) :
    Except NameErr ArrayName :=
  if validIndexB06 n.getNoComponents i true = false then .error .illegalArgument
  else if properlyMasked n.delimiter c = false then .error .illegalArgument
  else
    match mkArrayName (insertAt n.components i c) n.delimiter with
    | .error e => .error e
    | .ok newName =>
      if newName.getNoComponents = n.getNoComponents + 1 then
        match newName.getComponent i with
        | .error e => .error e
        | .ok got => if got = c then .ok newName else .error .methodFailed
      else .error .methodFailed

/-- AbstractName.append (adap-b06, lines 261-286) over the array
representation. -/
def ArrayName.append (n : ArrayName) (c : List Char) : Except NameErr ArrayName :=
  if properlyMasked n.delimiter c = false then .error .illegalArgument
  else
    match mkArrayName (n.components ++ [c]) n.delimiter with
    | .error e => .error e
    | .ok newName =>
      if newName.getNoComponents = n.getNoComponents + 1 then
        match newName.getComponent n.getNoComponents with
        | .error e => .error e
        | .ok got => if got = c then .ok newName else .error .methodFailed
      else .error .methodFailed

/-- AbstractName.remove (adap-b06, lines 297-318) over the array
representation. -/
def ArrayName.remove (n : ArrayName) (i : Nat) : Except NameErr ArrayName :=
  if validIndexB06 n.getNoComponents i false = false then .error .illegalArgument
  else
    match mkArrayName (removeAt n.components i) n.delimiter with
    | .error e => .error e
    | .ok newName =>
      if newName.getNoComponents = n.getNoComponents - 1 then .ok newName
      else .error .methodFailed

/-- The loop body of AbstractName.concat: repeatedly apply the public append
to the components of the other name, in order. -/
def ArrayName.appendAll (n : ArrayName) : List (List Char) → Except NameErr ArrayName
  | [] => .ok n
  | c :: rest =>
    match n.append c with
    | .error e => .error e
    | .ok n2 => n2.appendAll rest

/-- AbstractName.concat (adap-b06, lines 329-357) over the array
representation: an empty argument short-circuits to clone; otherwise the
clone is extended by appending every component of the other name, and the
postcondition checks the final count. -/
def ArrayName.concat (n : ArrayName) (other : NameView) : Except NameErr ArrayName :=
  if other.2.length = 0 then n.clone
  else
    match n.clone with
    | .error e => .error e
    | .ok start =>
      match start.appendAll other.2 with
      | .error e => .error e
      | .ok res =>
        if res.getNoComponents = n.getNoComponents + other.2.length then .ok res
        else .error .methodFailed

/-- StringName.parseComponents applied to the stored flat string. -/
def StrName.components (n : StrName) : List (List Char) := parse n.delimiter n.name

def StrName.getNoComponents (n : StrName) : Nat := n.noComponents

def StrName.doGetComponent (n : StrName) (i : Nat) : List Char :=
  n.components.getD i []

def StrName.isEmpty (n : StrName) : Bool := decide (n.getNoComponents = 0)

def StrName.getComponent (n : StrName) (i : Nat) : Except NameErr (List Char) :=
  if validIndexB06 n.getNoComponents i false then .ok (n.doGetComponent i)
  else .error .illegalArgument

def StrName.view (n : StrName) : NameView := (n.delimiter, n.components)

def StrName.asString (n : StrName) (d2 : Char) : Except NameErr (List Char) :=
  if d2 = escapeCharacter then .error .illegalArgument
  else .ok (joinD d2 (n.components.map doUnmask))

def StrName.asDataString (n : StrName) : List Char :=
  canonical n.delimiter n.components

def StrName.isEqual (n : StrName) (v : NameView) : Bool :=
  isEqualName n.delimiter n.components v.1 v.2

def StrName.clone (n : StrName) : Except NameErr StrName :=
  match mkStrName n.name n.delimiter with
  | .error e => .error e
  | .ok cloned =>
    if isEqualName cloned.delimiter cloned.components n.delimiter n.components then
      .ok cloned
    else .error .methodFailed

/-- StringName.doSetComponent (adap-b06, lines 595-600) behind the
AbstractName.setComponent contract: parse, overwrite, join, reconstruct. -/
def StrName.setComponent (n : StrName) (i : Nat) (c : List Char) :
    Except NameErr StrName :=
  if validIndexB06 n.getNoComponents i false = false then .error .illegalArgument
  else if properlyMasked n.delimiter c = false then .error .illegalArgument
  else
    match mkStrName (joinD n.delimiter (setAt n.components i c)) n.delimiter with
    | .error e => .error e
    | .ok newName =>
      match newName.getComponent i with
      | .error e => .error e
      | .ok got =>
        if got = c then
          if newName.getNoComponents = n.getNoComponents then .ok newName
          else .error .methodFailed
        else .error .methodFailed

/-- StringName.doInsert (adap-b06, lines 612-617) behind the
AbstractName.insert contract. -/
def StrName.insert (n : StrName) (i : Nat) (c : List Char) :
    Except NameErr StrName :=
  if validIndexB06 n.getNoComponents i true = false then .error .illegalArgument
  else if properlyMasked n.delimiter c = false then .error .illegalArgument
  else
    match mkStrName (joinD n.delimiter (insertAt n.components i c)) n.delimiter with
    | .error e => .error e
    | .ok newName =>
      if newName.getNoComponents = n.getNoComponents + 1 then
        match newName.getComponent i with
        | .error e => .error e
        | .ok got => if got = c then .ok newName else .error .methodFailed
      else .error .methodFailed

/-- StringName.doAppend (adap-b06, lines 627-635) behind the
AbstractName.append contract: an empty receiver takes the component as the
whole flat string, otherwise delimiter and component are appended. -/
def StrName.append (n : StrName) (c : List Char) : Except NameErr StrName :=
  if properlyMasked n.delimiter c = false then .error .illegalArgument
  else
    match mkStrName
      (if n.noComponents = 0 then c else n.name ++ n.delimiter :: c) n.delimiter with
    | .error e => .error e
    | .ok newName =>
      if newName.getNoComponents = n.getNoComponents + 1 then
        match newName.getComponent n.getNoComponents with
        | .error e => .error e
        | .ok got => if got = c then .ok newName else .error .methodFailed
      else .error .methodFailed

/-- StringName.doRemove (adap-b06, lines 644-649) behind the
AbstractName.remove contract. -/
def StrName.remove (n : StrName) (i : Nat) : Except NameErr StrName :=
  if validIndexB06 n.getNoComponents i false = false then .error .illegalArgument
  else
    match mkStrName (joinD n.delimiter (removeAt n.components i)) n.delimiter with
    | .error e => .error e
    | .ok newName =>
      if newName.getNoComponents = n.getNoComponents - 1 then .ok newName
      else .error .methodFailed

def StrName.appendAll (n : StrName) : List (List Char) → Except NameErr StrName
  | [] => .ok n
  | c :: rest =>
    match n.append c with
    | .error e => .error e
    | .ok n2 => n2.appendAll rest

def StrName.concat (n : StrName) (other : NameView) : Except NameErr StrName :=
  if other.2.length = 0 then n.clone
  else
    match n.clone with
    | .error e => .error e
    | .ok start =>
      match start.appendAll other.2 with
      | .error e => .error e
      | .ok res =>
        if res.getNoComponents = n.getNoComponents + other.2.length then .ok res
        else .error .methodFailed

/-- Inductive characterization of canonically masked components. -/
inductive CanonMasked (d : Char) : List Char → Prop
  | nil : CanonMasked d []
  | pair {x : Char} (hx : x = d ∨ x = escapeCharacter) {rest : List Char}
      (h : CanonMasked d rest) : CanonMasked d (escapeCharacter :: x :: rest)
  | single {a : Char} {rest : List Char} (ha : a ≠ escapeCharacter)
      (hd : a ≠ d) (h : CanonMasked d rest) : CanonMasked d (a :: rest)

/-- The class invariant stated by the claim and by assertClassInvariants
(adap-b06 AbstractName.ts, lines 426-454), on the observable view: the
delimiter is not the escape character (and is one character by type), and
every stored component is properly masked for this delimiter. -/
def nameInvariant (v : NameView) : Bool :=
  decide (v.1 ≠ escapeCharacter) && v.2.all (fun c => properlyMasked v.1 c)

/-- The mutable AbstractName.concat (src/unnamed/part_001, lines 211-219)
running over the mutable StringArrayName (adap-b03 StringArrayName.ts):
an empty argument is a no-op; otherwise every component of the other name is
pushed verbatim by doAppend, with no masking assertion (concat calls
doAppend, not the validating append). -/
def mutableArrayConcat (n : NameView) (other : NameView) : NameView :=
  if other.2.length = 0 then n
  else (n.1, n.2 ++ other.2)

/-- State of the mutable adap-b02 StringName: delimiter plus flat encoded
string (the component view is recomputed by parseComponents on demand). -/
structure B02State where
  delimiter : Char
  name : List Char
deriving DecidableEq

/-- StringName.parseComponents of adap-b02 (lines 301-330), identical scan to
the b06 version, applied to the stored flat string. -/
def B02State.components (s : B02State) : List (List Char) :=
  parse s.delimiter s.name

/-- assertIsValidIndex of adap-b02 (lines 231-237): max is count (insert) or
count minus one (signed, so an empty name admits no read index); the lower
bound zero is carried by the Nat index type. -/
def validIndexB02 (count i : Nat) (allowEnd : Bool) : Bool :=
  decide ((i : Int) ≤ if allowEnd then (count : Int) else (count : Int) - 1)

/-- adap-b02 getComponent (lines 90-100); an error carries the receiver state
observable after the throw. -/
def b02GetComponent (s : B02State) (i : Nat) :
    Except (NameErr × B02State) (List Char) :=
  if validIndexB02 s.components.length i false = false then
    .error (.illegalArgument, s)
  else .ok (s.components.getD i [])

/-- adap-b02 setComponent (lines 105-118): index check, component checks,
then parse-overwrite-join in place. -/
def b02SetComponent (s : B02State) (i : Nat) (c : List Char) :
    Except (NameErr × B02State) B02State :=
  if validIndexB02 s.components.length i false = false then
    .error (.illegalArgument, s)
  else if properlyMasked s.delimiter c = false then
    .error (.illegalArgument, s)
  else .ok ⟨s.delimiter, joinD s.delimiter (setAt s.components i c)⟩

/-- adap-b02 insert (lines 123-130). -/
def b02Insert (s : B02State) (i : Nat) (c : List Char) :
    Except (NameErr × B02State) B02State :=
  if validIndexB02 s.components.length i true = false then
    .error (.illegalArgument, s)
  else if properlyMasked s.delimiter c = false then
    .error (.illegalArgument, s)
  else .ok ⟨s.delimiter, joinD s.delimiter (insertAt s.components i c)⟩

/-- adap-b02 append (lines 135-143): mask check, then in-place extension of
the flat string. -/
def b02Append (s : B02State) (c : List Char) :
    Except (NameErr × B02State) B02State :=
  if properlyMasked s.delimiter c = false then .error (.illegalArgument, s)
  else .ok ⟨s.delimiter,
    if 0 < s.name.length then s.name ++ s.delimiter :: c else c⟩

/-- adap-b02 remove (lines 148-153). -/
def b02Remove (s : B02State) (i : Nat) :
    Except (NameErr × B02State) B02State :=
  if validIndexB02 s.components.length i false = false then
    .error (.illegalArgument, s)
  else .ok ⟨s.delimiter, joinD s.delimiter (removeAt s.components i)⟩

/-- The loop of adap-b02 concat (lines 158-165): append each component of the
other name in order; an error mid-loop propagates with the receiver already
partially mutated. -/
def b02AppendAll (s : B02State) :
    List (List Char) → Except (NameErr × B02State) B02State
  | [] => .ok s
  | c :: rest =>
    match b02Append s c with
    | .error e => .error e
    | .ok s2 => b02AppendAll s2 rest

/-- adap-b02 concat (lines 158-165): empty other is a no-op, otherwise the
public append is applied to every component of other. -/
def b02Concat (s : B02State) (other : NameView) :
    Except (NameErr × B02State) B02State :=
  if other.2.length = 0 then .ok s
  else b02AppendAll s other.2

/-- Induction principle matching the two-characters-at-a-time scans above. -/
theorem scanInduction (P : List Char → Prop) (h0 : P []) (h1 : ∀ a, P [a])
    (h2 : ∀ a b rest, P rest → P (b :: rest) → P (a :: b :: rest)) :
    ∀ c, P c := by
  have key : ∀ n c, List.length c ≤ n → P c := by
    intro n
    induction n with
    | zero =>
      intro c hc
      cases c with
      | nil => exact h0
      | cons a t => simp at hc
    | succ n ih =>
      intro c hc
      match c with
      | [] => exact h0
      | [a] => exact h1 a
      | a :: b :: rest =>
        simp only [List.length_cons] at hc
        exact h2 a b rest (ih rest (by omega)) (ih (b :: rest) (by simp; omega))
  intro c
  exact key c.length c le_rfl

theorem properlyMasked_iff_Masked (d : Char) :
    ∀ c, properlyMasked d c = true ↔ Masked d c := by
  apply scanInduction
  · simp [properlyMasked]
    exact Masked.nil
  · intro a
    constructor
    · intro h
      simp only [properlyMasked] at h
      by_cases hesc : a = escapeCharacter
      · simp [hesc] at h
      · by_cases hd : a = d
        · simp [hesc, hd] at h
        · exact Masked.single hesc hd Masked.nil
    · intro h
      cases h with
      | single ha hd h => simp [properlyMasked, ha, hd]
  · intro a b rest ih1 ih2
    constructor
    · intro h
      simp only [properlyMasked] at h
      by_cases hesc : a = escapeCharacter
      · subst hesc
        simp only [if_pos rfl] at h
        exact Masked.pair b (ih1.mp h)
      · by_cases hd : a = d
        · simp [hesc, hd] at h
          exact absurd (hd ▸ h.1) hesc
        · simp only [if_neg hesc, if_neg hd] at h
          exact Masked.single hesc hd (ih2.mp h)
    · intro h
      cases h with
      | pair x h => simp only [properlyMasked, if_pos rfl]; exact ih1.mpr h
      | single ha hd h =>
        simp only [properlyMasked, if_neg ha, if_neg hd]
        exact ih2.mpr h

theorem parseAux_ne_nil (d : Char) : ∀ s, parseAux d s ≠ [] := by
  apply scanInduction
  · simp [parseAux]
  · intro a
    simp only [parseAux]
    split <;> simp
  · intro a b rest ih1 ih2
    simp only [parseAux]
    split
    · cases h : parseAux d rest with
      | nil => exact absurd h ih1
      | cons x t => simp [mapHead]
    · split
      · simp
      · cases h : parseAux d (b :: rest) with
        | nil => exact absurd h ih2
        | cons x t => simp [mapHead]

/-- Scan step: an escape pair at the front of the input is copied verbatim
into the current (first) component. -/
theorem parseAux_escape (d x : Char) (L : List Char) :
    parseAux d (escapeCharacter :: x :: L) =
      mapHead (fun t => escapeCharacter :: x :: t) (parseAux d L) := by
  simp [parseAux]

/-- Scan step: an unescaped delimiter at the front flushes the (empty) current
component and tokenization continues on the rest. -/
theorem parseAux_delim (d : Char) (hd : d ≠ escapeCharacter) (L : List Char) :
    parseAux d (d :: L) = [] :: parseAux d L := by
  cases L with
  | nil => simp [parseAux]
  | cons b rest => simp [parseAux, hd]

/-- Scan step: an ordinary character at the front is copied into the current
(first) component. -/
theorem parseAux_other (d a : Char) (ha : a ≠ escapeCharacter) (hd : a ≠ d)
    (L : List Char) :
    parseAux d (a :: L) = mapHead (fun t => a :: t) (parseAux d L) := by
  cases L with
  | nil => simp [parseAux, mapHead, ha, hd]
  | cons b rest => simp [parseAux, ha, hd]

/-- A properly masked component, tokenized on its own, is a single component. -/
theorem parseAux_masked (d : Char) {c : List Char} (h : Masked d c) :
    parseAux d c = [c] := by
  induction h with
  | nil => simp [parseAux]
  | pair x h ih => rw [parseAux_escape, ih]; rfl
  | single ha hd h ih => rw [parseAux_other d _ ha hd, ih]; rfl

/-- A properly masked component followed by a delimiter tokenizes to that
component followed by the tokenization of the remainder. -/
theorem parseAux_masked_delim (d : Char) (hd : d ≠ escapeCharacter)
    {c : List Char} (h : Masked d c) (rest : List Char) :
    parseAux d (c ++ d :: rest) = c :: parseAux d rest := by
  induction h with
  | nil => simpa using parseAux_delim d hd rest
  | pair x h ih =>
    rw [List.cons_append, List.cons_append, parseAux_escape, ih]
    rfl
  | single ha hd2 h ih =>
    rw [List.cons_append, parseAux_other d _ ha hd2, ih]
    rfl

/-- Array.join with a separator distributes over cons for non-empty tails. -/
theorem joinD_cons (d : Char) (c : List Char) {cs : List (List Char)}
    (h : cs ≠ []) : joinD d (c :: cs) = c ++ d :: joinD d cs := by
  cases cs with
  | nil => exact absurd rfl h
  | cons c2 rest => rfl

/-- Tokenizing the join of a non-empty list of properly masked components
recovers exactly that list (the empty-string special case not yet applied). -/
theorem parseAux_joinD (d : Char) (hd : d ≠ escapeCharacter) :
    ∀ cs : List (List Char), cs ≠ [] → (∀ c ∈ cs, Masked d c) →
      parseAux d (joinD d cs) = cs := by
  intro cs
  induction cs with
  | nil => intro h; exact absurd rfl h
  | cons c rest ih =>
    intro _ hm
    cases rest with
    | nil =>
      simp only [joinD]
      exact parseAux_masked d (hm c (by simp))
    | cons c2 rest2 =>
      rw [joinD_cons d c (by simp)]
      rw [parseAux_masked_delim d hd (hm c (by simp))]
      rw [ih (by simp) (fun x hx => hm x (List.mem_cons_of_mem c hx))]

/-- The join of a properly masked component list is empty exactly when the
list is empty or is the single empty component. -/
theorem joinD_eq_nil_iff (d : Char) :
    ∀ cs : List (List Char), joinD d cs = [] ↔ cs = [] ∨ cs = [[]] := by
  intro cs
  match cs with
  | [] => simp [joinD]
  | [c] => simp [joinD]
  | c :: c2 :: rest => simp [joinD]

/-- Round-trip of parse and join for properly masked component lists other
than the single empty component. -/
theorem parse_joinD (d : Char) (hd : d ≠ escapeCharacter)
    (cs : List (List Char)) (hm : ∀ c ∈ cs, Masked d c) (hne : cs ≠ [[]]) :
    parse d (joinD d cs) = cs := by
  cases hcs : cs with
  | nil => simp [parse, joinD]
  | cons c rest =>
    have hjoin : joinD d cs ≠ [] := by
      rw [Ne, joinD_eq_nil_iff]
      push_neg
      exact ⟨by simp [hcs], hne⟩
    rw [hcs] at hjoin
    unfold parse
    rw [if_neg hjoin]
    exact parseAux_joinD d hd (c :: rest) (by simp) (hcs ▸ hm)

theorem length_setAt : ∀ (l : List (List Char)) (i : Nat) (c : List Char),
    (setAt l i c).length = l.length := by
  intro l
  induction l with
  | nil => intro i c; cases i <;> rfl
  | cons h t ih =>
    intro i c
    cases i with
    | zero => rfl
    | succ j => simp [setAt, ih]

theorem getD_setAt_self : ∀ (l : List (List Char)) (i : Nat) (c : List Char),
    i < l.length → (setAt l i c).getD i [] = c := by
  intro l
  induction l with
  | nil => intro i c h; simp at h
  | cons hd t ih =>
    intro i c h
    cases i with
    | zero => rfl
    | succ j =>
      simp only [setAt, List.getD_cons_succ]
      exact ih j c (by simpa using h)

theorem mem_setAt : ∀ (l : List (List Char)) (i : Nat) (c x : List Char),
    x ∈ setAt l i c → x = c ∨ x ∈ l := by
  intro l
  induction l with
  | nil => intro i c x h; cases i <;> simp [setAt] at h
  | cons hd t ih =>
    intro i c x h
    cases i with
    | zero =>
      rcases List.mem_cons.mp h with h1 | h1
      · exact Or.inl h1
      · exact Or.inr (List.mem_cons_of_mem hd h1)
    | succ j =>
      rcases List.mem_cons.mp h with h1 | h1
      · exact Or.inr (h1 ▸ List.mem_cons_self hd t)
      · rcases ih j c x h1 with h2 | h2
        · exact Or.inl h2
        · exact Or.inr (List.mem_cons_of_mem hd h2)

theorem length_insertAt : ∀ (l : List (List Char)) (i : Nat) (c : List Char),
    i ≤ l.length → (insertAt l i c).length = l.length + 1 := by
  intro l
  induction l with
  | nil =>
    intro i c h
    have h0 : i = 0 := Nat.le_zero.mp (by simpa using h)
    subst h0
    rfl
  | cons hd t ih =>
    intro i c h
    cases i with
    | zero => rfl
    | succ j => simp [insertAt, ih j c (by simpa using h)]

theorem getD_insertAt_self : ∀ (l : List (List Char)) (i : Nat) (c : List Char),
    i ≤ l.length → (insertAt l i c).getD i [] = c := by
  intro l
  induction l with
  | nil =>
    intro i c h
    have h0 : i = 0 := Nat.le_zero.mp (by simpa using h)
    subst h0
    rfl
  | cons hd t ih =>
    intro i c h
    cases i with
    | zero => rfl
    | succ j =>
      simp only [insertAt, List.getD_cons_succ]
      exact ih j c (by simpa using h)

theorem mem_insertAt : ∀ (l : List (List Char)) (i : Nat) (c x : List Char),
    x ∈ insertAt l i c → x = c ∨ x ∈ l := by
  intro l
  induction l with
  | nil =>
    intro i c x h
    cases i <;> simpa [insertAt] using h
  | cons hd t ih =>
    intro i c x h
    cases i with
    | zero =>
      rcases List.mem_cons.mp h with h1 | h1
      · exact Or.inl h1
      · exact Or.inr h1
    | succ j =>
      rcases List.mem_cons.mp h with h1 | h1
      · exact Or.inr (h1 ▸ List.mem_cons_self hd t)
      · rcases ih j c x h1 with h2 | h2
        · exact Or.inl h2
        · exact Or.inr (List.mem_cons_of_mem hd h2)

theorem length_removeAt : ∀ (l : List (List Char)) (i : Nat),
    i < l.length → (removeAt l i).length = l.length - 1 := by
  intro l
  induction l with
  | nil => intro i h; simp at h
  | cons hd t ih =>
    intro i h
    cases i with
    | zero => simp [removeAt]
    | succ j =>
      have ht : j < t.length := by simpa using h
      have := ih j ht
      simp only [removeAt, List.length_cons, this]
      omega

theorem mem_removeAt : ∀ (l : List (List Char)) (i : Nat) (x : List Char),
    x ∈ removeAt l i → x ∈ l := by
  intro l
  induction l with
  | nil => intro i x h; cases i <;> simp [removeAt] at h
  | cons hd t ih =>
    intro i x h
    cases i with
    | zero => exact List.mem_cons_of_mem hd h
    | succ j =>
      rcases List.mem_cons.mp h with h1 | h1
      · exact h1 ▸ List.mem_cons_self hd t
      · exact List.mem_cons_of_mem hd (ih j x h1)

theorem getD_append_self (l : List (List Char)) (c : List Char) :
    (l ++ [c]).getD l.length [] = c := by
  induction l with
  | nil => rfl
  | cons hd t ih => simp [ih]

/-- The b06 isEqual test succeeds exactly when delimiters agree and the
encoded component lists are identical. -/
theorem isEqualName_iff (d1 d2 : Char) (cs1 cs2 : List (List Char)) :
    isEqualName d1 cs1 d2 cs2 = true ↔ (d1 = d2 ∧ cs1 = cs2) := by
  unfold isEqualName
  constructor
  · intro h
    by_cases hlen : cs1.length = cs2.length
    · by_cases hdel : d1 = d2
      · rw [if_neg (not_ne_iff.mpr hlen), if_neg (not_ne_iff.mpr hdel)] at h
        refine ⟨hdel, List.ext_getElem hlen ?_⟩
        intro n h1 h2
        have := List.all_eq_true.mp h n (List.mem_range.mpr (by omega))
        have hb : cs1.getD n [] = cs2.getD n [] := by simpa using this
        rwa [List.getD_eq_getElem cs1 [] h1, List.getD_eq_getElem cs2 [] h2] at hb
      · rw [if_neg (not_ne_iff.mpr hlen), if_pos hdel] at h
        exact absurd h (by simp)
    · rw [if_pos hlen] at h
      exact absurd h (by simp)
  · rintro ⟨hdel, hcs⟩
    subst hdel hcs
    simp

theorem mapHead_append (f : List Char → List Char) (l l2 : List (List Char))
    (h : l ≠ []) : mapHead f (l ++ l2) = mapHead f l ++ l2 := by
  cases l with
  | nil => exact absurd rfl h
  | cons x t => rfl

/-- Appending an unescaped delimiter at the end adds one trailing empty
component; the side condition says the string does not end in a lone escape
character that would capture the appended delimiter. -/
theorem parseAux_append_delim (d : Char) (hd : d ≠ escapeCharacter) :
    ∀ s, endsWithLoneEscape s = false →
      parseAux d (s ++ [d]) = parseAux d s ++ [[]] := by
  apply scanInduction
  · intro _
    simp [parseAux]
  · intro a h
    have ha : a ≠ escapeCharacter := by
      simpa [endsWithLoneEscape] using h
    by_cases had : a = d
    · rw [had, List.cons_append, List.nil_append, parseAux_delim d hd,
        parseAux_delim d hd]
      simp [parseAux]
    · rw [List.cons_append, List.nil_append, parseAux_other d a ha had,
        parseAux_delim d hd]
      simp [parseAux, mapHead, ha, had]
  · intro a b rest ih1 ih2 h
    by_cases ha : a = escapeCharacter
    · subst ha
      have hrest : endsWithLoneEscape rest = false := by
        simpa [endsWithLoneEscape] using h
      rw [List.cons_append, List.cons_append, parseAux_escape, parseAux_escape,
        ih1 hrest, mapHead_append _ _ _ (parseAux_ne_nil d rest)]
    · have hbrest : endsWithLoneEscape (b :: rest) = false := by
        simpa [endsWithLoneEscape, ha] using h
      by_cases had : a = d
      · rw [List.cons_append, had, parseAux_delim d hd, parseAux_delim d hd,
          ih2 hbrest]
        rfl
      · rw [List.cons_append, parseAux_other d a ha had,
          parseAux_other d a ha had, ih2 hbrest,
          mapHead_append _ _ _ (parseAux_ne_nil d (b :: rest))]

/-- C7 (confirmed): the tokenizer maps the empty flat string to the empty
component list; an escape character with a following character is copied
verbatim as a two-character unit into the current component; an unescaped
delimiter ends the current component and starts a new one; and end of input
flushes the final buffer, so a flat string ending in an unescaped delimiter
gains a trailing empty component. -/
theorem claim7_tokenizer_behavior (d : Char) (hd : d ≠ escapeCharacter) :
    parse d [] = [] ∧
    (∀ b rest, parseAux d (escapeCharacter :: b :: rest) =
      (escapeCharacter :: b :: (parseAux d rest).headD []) ::
        (parseAux d rest).tail) ∧
    (∀ rest, parseAux d (d :: rest) = [] :: parseAux d rest) ∧
    (∀ s, endsWithLoneEscape s = false →
      parseAux d (s ++ [d]) = parseAux d s ++ [[]]) := by
  refine ⟨rfl, ?_, parseAux_delim d hd, parseAux_append_delim d hd⟩
  intro b rest
  rw [parseAux_escape]
  cases hp : parseAux d rest with
  | nil => exact absurd hp (parseAux_ne_nil d rest)
  | cons x t => rfl

/-- Witness for C7 at the default delimiter on concrete inputs. -/
theorem claim7_witness :
    parse defaultDelimiter [] = [] ∧
    parseAux defaultDelimiter (['a'] ++ [defaultDelimiter]) =
      parseAux defaultDelimiter ['a'] ++ [[]] :=
  ⟨(claim7_tokenizer_behavior defaultDelimiter (by decide)).1,
    (claim7_tokenizer_behavior defaultDelimiter (by decide)).2.2.2 ['a']
      (by decide)⟩

theorem doUnmask_pair (b : Char) (L : List Char) :
    doUnmask (escapeCharacter :: b :: L) = b :: doUnmask L := by
  simp [doUnmask]

theorem doUnmask_cons_ne {a : Char} (ha : a ≠ escapeCharacter) (L : List Char) :
    doUnmask (a :: L) = a :: doUnmask L := by
  cases L with
  | nil => rfl
  | cons x t => simp [doUnmask, ha]

theorem maskBlocks_pair (b : Char) (L : List Char) :
    maskBlocks (escapeCharacter :: b :: L) = [escapeCharacter, b] :: maskBlocks L := by
  simp [maskBlocks]

theorem maskBlocks_cons_ne {a : Char} (ha : a ≠ escapeCharacter) (L : List Char) :
    maskBlocks (a :: L) = [a] :: maskBlocks L := by
  cases L with
  | nil => rfl
  | cons x t => simp [maskBlocks, ha]

/-- The scan blocks concatenate back to the original string: the pairing scan
neither drops nor reorders characters. -/
theorem maskBlocks_flatten : ∀ c, (maskBlocks c).flatten = c := by
  apply scanInduction
  · rfl
  · intro a
    rfl
  · intro a b rest ih1 ih2
    by_cases ha : a = escapeCharacter
    · rw [ha, maskBlocks_pair]
      simp [ih1]
    · rw [maskBlocks_cons_ne ha]
      simp [ih2]

/-- doUnmask acts blockwise: each two-character escape block loses exactly its
leading escape character, every other block is emitted unchanged. -/
theorem doUnmask_eq_blocks :
    ∀ c, doUnmask c = ((maskBlocks c).map blockImage).flatten := by
  apply scanInduction
  · rfl
  · intro a
    rfl
  · intro a b rest ih1 ih2
    by_cases ha : a = escapeCharacter
    · rw [ha, doUnmask_pair, maskBlocks_pair]
      simp [blockImage, ih1]
    · rw [doUnmask_cons_ne ha, maskBlocks_cons_ne ha]
      simp [blockImage, ih2]

/-- In a properly masked component every scan block is either an escape pair
or a single character that is neither the escape character nor the delimiter. -/
theorem maskBlocks_shape_of_masked {d : Char} {c : List Char} (h : Masked d c) :
    ∀ b ∈ maskBlocks c,
      (∃ x, b = [escapeCharacter, x]) ∨
      ∃ a, a ≠ escapeCharacter ∧ a ≠ d ∧ b = [a] := by
  induction h with
  | nil => intro b hb; simp [maskBlocks] at hb
  | pair x h ih =>
    intro b hb
    rw [maskBlocks_pair] at hb
    rcases List.mem_cons.mp hb with h1 | h1
    · exact Or.inl ⟨x, h1⟩
    · exact ih b h1
  | single ha hd h ih =>
    intro b hb
    rw [maskBlocks_cons_ne ha] at hb
    rcases List.mem_cons.mp hb with h1 | h1
    · exact Or.inr ⟨_, ha, hd, h1⟩
    · exact ih b h1

/-- A string ending (under the pairing scan) in a lone escape character is
unmasked to a string that still ends in that escape character. -/
theorem doUnmask_lone_escape :
    ∀ c, endsWithLoneEscape c = true → ∃ t, doUnmask c = t ++ [escapeCharacter] := by
  apply scanInduction
  · intro h
    simp [endsWithLoneEscape] at h
  · intro a h
    have ha : a = escapeCharacter := by simpa [endsWithLoneEscape] using h
    exact ⟨[], by simp [doUnmask, ha]⟩
  · intro a b rest ih1 ih2 h
    by_cases ha : a = escapeCharacter
    · rw [ha, doUnmask_pair]
      have hrest : endsWithLoneEscape rest = true := by
        simpa [endsWithLoneEscape, ha] using h
      obtain ⟨t, ht⟩ := ih1 hrest
      exact ⟨b :: t, by simp [ht]⟩
    · rw [doUnmask_cons_ne ha]
      have hbrest : endsWithLoneEscape (b :: rest) = true := by
        simpa [endsWithLoneEscape, ha] using h
      obtain ⟨t, ht⟩ := ih2 hbrest
      exact ⟨a :: t, by simp [ht]⟩

/-- C10 (confirmed): doUnmask is total; an unpaired trailing escape character
is emitted verbatim, so the output ends with the escape character; and on
every properly masked component the scan decomposes the input into blocks
that doUnmask maps blockwise, removing exactly the leading escape character
of each escape pair and leaving every other character unchanged. -/
theorem claim10_unmask_total (d : Char) :
    (∀ c, endsWithLoneEscape c = true →
      ∃ t, doUnmask c = t ++ [escapeCharacter]) ∧
    (∀ c, (maskBlocks c).flatten = c) ∧
    (∀ c, doUnmask c = ((maskBlocks c).map blockImage).flatten) ∧
    (∀ c, properlyMasked d c = true → ∀ b ∈ maskBlocks c,
      (∃ x, b = [escapeCharacter, x]) ∨
      ∃ a, a ≠ escapeCharacter ∧ a ≠ d ∧ b = [a]) :=
  ⟨doUnmask_lone_escape, maskBlocks_flatten, doUnmask_eq_blocks,
    fun c hc => maskBlocks_shape_of_masked ((properlyMasked_iff_Masked d c).mp hc)⟩

/-- Witness for C10: a lone trailing escape survives unmasking of a
two-block input, and the blocks of a concrete properly masked component have
the stated shapes. -/
theorem claim10_witness :
    (∃ t, doUnmask ['a', escapeCharacter] = t ++ [escapeCharacter]) ∧
    (∀ b ∈ maskBlocks [escapeCharacter, defaultDelimiter, 'a'],
      (∃ x, b = [escapeCharacter, x]) ∨
      ∃ a, a ≠ escapeCharacter ∧ a ≠ defaultDelimiter ∧ b = [a]) :=
  ⟨(claim10_unmask_total defaultDelimiter).1 ['a', escapeCharacter] (by decide),
    (claim10_unmask_total defaultDelimiter).2.2.2
      [escapeCharacter, defaultDelimiter, 'a'] (by decide)⟩

/-- doUnmask inverts doMask on every raw string: doMask only creates escape
pairs, and doUnmask removes exactly those pairs again. -/
theorem doUnmask_doMask : ∀ (d : Char) (s : List Char),
    doUnmask (doMask d s) = s := by
  intro d s
  induction s with
  | nil => rfl
  | cons ch rest ih =>
    by_cases hsp : ch = d ∨ ch = escapeCharacter
    · rw [doMask, if_pos hsp, doUnmask_pair, ih]
    · have hne : ch ≠ escapeCharacter := fun h => hsp (Or.inr h)
      rw [doMask, if_neg hsp, doUnmask_cons_ne hne, ih]

theorem canonicallyMasked_iff (d : Char) :
    ∀ c, canonicallyMasked d c = true ↔ CanonMasked d c := by
  apply scanInduction
  · simp [canonicallyMasked]
    exact CanonMasked.nil
  · intro a
    constructor
    · intro h
      simp only [canonicallyMasked] at h
      by_cases hesc : a = escapeCharacter
      · simp [hesc] at h
      · by_cases hd : a = d
        · simp [hesc, hd] at h
        · exact CanonMasked.single hesc hd CanonMasked.nil
    · intro h
      cases h with
      | single ha hd h => simp [canonicallyMasked, ha, hd]
  · intro a b rest ih1 ih2
    constructor
    · intro h
      simp only [canonicallyMasked] at h
      by_cases hesc : a = escapeCharacter
      · rw [if_pos hesc, Bool.and_eq_true] at h
        refine hesc ▸ CanonMasked.pair ?_ (ih1.mp h.2)
        have := h.1
        simp only [Bool.or_eq_true, decide_eq_true_eq] at this
        exact this
      · by_cases hd : a = d
        · simp [hesc, hd] at h
          exact absurd (hd ▸ h.1) hesc
        · rw [if_neg hesc, if_neg hd] at h
          exact CanonMasked.single hesc hd (ih2.mp h)
    · intro h
      cases h with
      | pair hx h =>
        have hr : canonicallyMasked d rest = true := ih1.mpr h
        rcases hx with hx | hx <;> simp [canonicallyMasked, hr, hx]
      | single ha hd h =>
        simp only [canonicallyMasked, if_neg ha, if_neg hd]
        exact ih2.mpr h

/-- doMask inverts doUnmask on components whose escape pairs escape only the
delimiter or the escape character (exactly the image of doMask). -/
theorem doMask_doUnmask (d : Char) :
    ∀ c, canonicallyMasked d c = true → doMask d (doUnmask c) = c := by
  intro c hc
  induction (canonicallyMasked_iff d c).mp hc with
  | nil => rfl
  | pair hx h ih =>
    rw [doUnmask_pair, doMask, if_pos hx, ih ((canonicallyMasked_iff d _).mpr h)]
  | single ha hd h ih =>
    rw [doUnmask_cons_ne ha, doMask, if_neg (by tauto),
      ih ((canonicallyMasked_iff d _).mpr h)]

/-- C3 counterexample: the component consisting of an escape character
followed by a plain letter is properly masked under the default delimiter,
but re-masking its unmasked form does not restore it (the harmless escape
pair is lost). -/
theorem claim3_counterexample :
    properlyMasked defaultDelimiter [escapeCharacter, 'a'] = true ∧
    doMask defaultDelimiter (doUnmask [escapeCharacter, 'a']) ≠
      [escapeCharacter, 'a'] := by
  decide

/-- C3 (amended): unmask after mask is the identity on every raw string and
every delimiter; mask after unmask restores a component only under the
stronger premise that each of its escape pairs escapes the delimiter or the
escape character (proper masking alone admits pairs such as escape-a, which
mask cannot reproduce). -/
theorem claim3_mask_unmask (d : Char) :
    (∀ s, doUnmask (doMask d s) = s) ∧
    (∀ c, canonicallyMasked d c = true → doMask d (doUnmask c) = c) :=
  ⟨doUnmask_doMask d, doMask_doUnmask d⟩

/-- Witness for C3 on concrete strings. -/
theorem claim3_witness :
    doUnmask (doMask defaultDelimiter ['a', defaultDelimiter]) =
      ['a', defaultDelimiter] ∧
    doMask defaultDelimiter (doUnmask [escapeCharacter, defaultDelimiter]) =
      [escapeCharacter, defaultDelimiter] :=
  ⟨(claim3_mask_unmask defaultDelimiter).1 ['a', defaultDelimiter],
    (claim3_mask_unmask defaultDelimiter).2 [escapeCharacter, defaultDelimiter]
      (by decide)⟩

theorem mkArrayName_ok (d : Char) (hd : d ≠ escapeCharacter)
    (cs : List (List Char)) (hne : cs ≠ [])
    (hm : ∀ c ∈ cs, properlyMasked d c = true) :
    mkArrayName cs d = .ok ⟨d, cs⟩ := by
  unfold mkArrayName
  rw [if_neg hd, if_neg (fun h => hne (List.length_eq_zero.mp h)),
    if_pos (List.all_eq_true.mpr hm)]

theorem mkStrName_join (d : Char) (hd : d ≠ escapeCharacter)
    (cs : List (List Char)) (hm : ∀ c ∈ cs, properlyMasked d c = true)
    (hne : cs ≠ [[]]) :
    mkStrName (joinD d cs) d = .ok ⟨d, joinD d cs, cs.length⟩ := by
  have hp : parse d (joinD d cs) = cs :=
    parse_joinD d hd cs
      (fun c hc => (properlyMasked_iff_Masked d c).mp (hm c hc)) hne
  unfold mkStrName
  rw [if_neg hd, hp]
  have hcond : ¬(cs.length = 0 ∧ joinD d cs ≠ []) := by
    rintro ⟨h0, hne2⟩
    have h1 : cs = [] := List.length_eq_zero.mp h0
    subst h1
    exact hne2 rfl
  rw [if_neg hcond, if_pos (List.all_eq_true.mpr hm)]

/-- C6 counterexample: two Names with delimiters dot and hash but identical
component lists have identical canonical strings, yet isEqual rejects them
because the delimiters differ — canonical-string identity is not equivalent
to isEqual. -/
theorem claim6_counterexample :
    canonical defaultDelimiter [['a'], ['b']] = canonical '#' [['a'], ['b']] ∧
    isEqualName defaultDelimiter [['a'], ['b']] '#' [['a'], ['b']] = false := by
  decide

/-- C6 (amended): isEqual returns true exactly when the delimiter characters
agree and the encoded component lists are identical (same count and
componentwise-identical components); this implies identical canonical
strings, but identical canonical strings do not imply isEqual. -/
theorem claim6_isEqual_definition (d1 d2 : Char) (cs1 cs2 : List (List Char)) :
    (isEqualName d1 cs1 d2 cs2 = true ↔ (d1 = d2 ∧ cs1 = cs2)) ∧
    (isEqualName d1 cs1 d2 cs2 = true → canonical d1 cs1 = canonical d2 cs2) := by
  refine ⟨isEqualName_iff d1 d2 cs1 cs2, ?_⟩
  intro h
  obtain ⟨hd, hcs⟩ := (isEqualName_iff d1 d2 cs1 cs2).mp h
  rw [hd, hcs]

/-- Witness for C6 at concrete equal and unequal names. -/
theorem claim6_witness :
    isEqualName defaultDelimiter [['a']] defaultDelimiter [['a']] = true ∧
    canonical defaultDelimiter [['a']] = canonical defaultDelimiter [['a']] :=
  ⟨(claim6_isEqual_definition defaultDelimiter defaultDelimiter
      [['a']] [['a']]).1.mpr ⟨rfl, rfl⟩,
    (claim6_isEqual_definition defaultDelimiter defaultDelimiter
      [['a']] [['a']]).2 (by decide)⟩

/-- C9 counterexample: constructing the array representation from an empty
component list does not succeed — the constructor raises the precondition
failure "source must contain at least one component". -/
theorem claim9_counterexample :
    mkArrayName [] defaultDelimiter = .error .illegalArgument := by
  rfl

/-- C9 (amended): only the flat-string representation accepts an empty
source: StringName of the empty string is a well-formed zero-component Name
(count zero, isEmpty true), while StringArrayName rejects the empty
component list with a precondition failure. -/
theorem claim9_empty_construction (d : Char) (hd : d ≠ escapeCharacter) :
    mkStrName [] d = .ok ⟨d, [], 0⟩ ∧
    StrName.getNoComponents ⟨d, [], 0⟩ = 0 ∧
    StrName.isEmpty ⟨d, [], 0⟩ = true ∧
    mkArrayName [] d = .error .illegalArgument := by
  refine ⟨?_, rfl, rfl, ?_⟩
  · unfold mkStrName
    rw [if_neg hd]
    simp [parse]
  · unfold mkArrayName
    rw [if_neg hd]
    rfl

/-- Witness for C9 at the default delimiter. -/
theorem claim9_witness :
    mkStrName [] defaultDelimiter = .ok ⟨defaultDelimiter, [], 0⟩ ∧
    StrName.getNoComponents ⟨defaultDelimiter, [], 0⟩ = 0 ∧
    StrName.isEmpty ⟨defaultDelimiter, [], 0⟩ = true ∧
    mkArrayName [] defaultDelimiter = .error .illegalArgument :=
  claim9_empty_construction defaultDelimiter (by decide)

/-- C1 counterexample: a Name with delimiter hash and single component "."
(properly masked for hash) has canonical string "\."; re-tokenizing with the
default delimiter yields the re-masked component "\.", not the stored
component "."; and the Name reconstructed from the canonical string is not
isEqual to the original (delimiters dot versus hash differ). -/
theorem claim1_counterexample :
    properlyMasked '#' [defaultDelimiter] = true ∧
    parse defaultDelimiter (canonical '#' [[defaultDelimiter]]) ≠
      [[defaultDelimiter]] ∧
    (mkStrName (canonical '#' [[defaultDelimiter]]) defaultDelimiter).map
      (fun S => S.isEqual ('#', [[defaultDelimiter]])) = .ok false :=
  ⟨by decide, by decide, by rfl⟩

/-- C1 (amended): for a Name whose stored delimiter is already the default
delimiter and whose component list is not the single empty component,
re-tokenizing the canonical string with the default delimiter recovers the
stored component list, and the StringName reconstructed from the canonical
string is isEqual to the original. -/
theorem claim1_canonical_roundtrip (cs : List (List Char))
    (hm : ∀ c ∈ cs, properlyMasked defaultDelimiter c = true)
    (hne : cs ≠ [[]]) :
    parse defaultDelimiter (canonical defaultDelimiter cs) = cs ∧
    mkStrName (canonical defaultDelimiter cs) defaultDelimiter =
      .ok ⟨defaultDelimiter, joinD defaultDelimiter cs, cs.length⟩ ∧
    StrName.isEqual ⟨defaultDelimiter, joinD defaultDelimiter cs, cs.length⟩
      (defaultDelimiter, cs) = true := by
  have hdd : defaultDelimiter ≠ escapeCharacter := by decide
  have hcanon : canonical defaultDelimiter cs = joinD defaultDelimiter cs := by
    unfold canonical
    rw [if_pos rfl]
  have hp : parse defaultDelimiter (joinD defaultDelimiter cs) = cs :=
    parse_joinD defaultDelimiter hdd cs
      (fun c hc => (properlyMasked_iff_Masked defaultDelimiter c).mp (hm c hc))
      hne
  refine ⟨by rw [hcanon, hp], by rw [hcanon]; exact mkStrName_join _ hdd cs hm hne, ?_⟩
  unfold StrName.isEqual StrName.components
  simp only [hp]
  exact (isEqualName_iff _ _ _ _).mpr ⟨rfl, rfl⟩

/-- Witness for C1 on a concrete two-component name. -/
theorem claim1_witness :
    parse defaultDelimiter (canonical defaultDelimiter [['a'], ['b']]) =
      [['a'], ['b']] ∧
    mkStrName (canonical defaultDelimiter [['a'], ['b']]) defaultDelimiter =
      .ok ⟨defaultDelimiter, joinD defaultDelimiter [['a'], ['b']], 2⟩ ∧
    StrName.isEqual
      ⟨defaultDelimiter, joinD defaultDelimiter [['a'], ['b']], 2⟩
      (defaultDelimiter, [['a'], ['b']]) = true :=
  claim1_canonical_roundtrip [['a'], ['b']] (by decide) (by decide)

/-- C4 (code bug): the count/placement contract fails on the code.  Appending
the (properly masked) empty component to the empty StringName produces the
flat string "", which parses back to zero components, so the implementation
trips its own postcondition "component count must increase by 1"
(MethodFailedException).  Likewise, removing the only component of a
StringArrayName aborts: doRemove reconstructs from an empty component array
and the constructor rejects it, so no Name with count decreased by one is
produced. -/
theorem claim4_count_laws_bug :
    mkStrName [] defaultDelimiter = .ok ⟨defaultDelimiter, [], 0⟩ ∧
    properlyMasked defaultDelimiter [] = true ∧
    StrName.append ⟨defaultDelimiter, [], 0⟩ [] = .error .methodFailed ∧
    mkArrayName [['a']] defaultDelimiter = .ok ⟨defaultDelimiter, [['a']]⟩ ∧
    ArrayName.remove ⟨defaultDelimiter, [['a']]⟩ 0 = .error .illegalArgument :=
  ⟨by rfl, by rfl, by rfl, by rfl, by rfl⟩

/-- C5 (code bug): concat in the mutable variant completes without raising
and breaks the masking invariant.  A dot-delimited name concatenated with a
hash-delimited name whose component contains a literal dot ends up storing a
component with an unescaped occurrence of its own delimiter. -/
theorem claim5_concat_invariant_bug :
    nameInvariant (defaultDelimiter, [['x']]) = true ∧
    nameInvariant ('#', [['a', defaultDelimiter, 'b']]) = true ∧
    mutableArrayConcat (defaultDelimiter, [['x']])
        ('#', [['a', defaultDelimiter, 'b']]) =
      (defaultDelimiter, [['x'], ['a', defaultDelimiter, 'b']]) ∧
    nameInvariant (defaultDelimiter, [['x'], ['a', defaultDelimiter, 'b']]) =
      false := by
  decide

/-- C8 counterexample: a dot-delimited receiver "x" concatenated with a
hash-delimited argument with components "ok" and "a.b" raises the
improperly-masked precondition failure on the second component, after the
first component was already appended — the receiver is left at "x.ok", not
its pre-call state "x". -/
theorem claim8_counterexample :
    b02Concat ⟨defaultDelimiter, ['x']⟩
        ('#', [['o', 'k'], ['a', defaultDelimiter, 'b']]) =
      .error (.illegalArgument,
        ⟨defaultDelimiter, ['x', defaultDelimiter, 'o', 'k']⟩) ∧
    (⟨defaultDelimiter, ['x', defaultDelimiter, 'o', 'k']⟩ : B02State) ≠
      ⟨defaultDelimiter, ['x']⟩ :=
  ⟨by rfl, by decide⟩

/-- C8 (amended): in the mutable adap-b02 variant, getComponent,
setComponent, insert, append and remove validate all preconditions before
any in-place mutation, so every raised precondition failure leaves the
receiver in its pre-call state; concat, however, validates each appended
component only as it reaches it and can fail after earlier appends mutated
the receiver. -/
theorem claim8_failure_atomicity (s : B02State) (i : Nat) (c : List Char) :
    (∀ e, b02GetComponent s i = .error e → e.2 = s) ∧
    (∀ e, b02SetComponent s i c = .error e → e.2 = s) ∧
    (∀ e, b02Insert s i c = .error e → e.2 = s) ∧
    (∀ e, b02Append s c = .error e → e.2 = s) ∧
    (∀ e, b02Remove s i = .error e → e.2 = s) := by
  refine ⟨?_, ?_, ?_, ?_, ?_⟩
  · intro e h
    unfold b02GetComponent at h
    split at h
    · injection h with h1
      rw [← h1]
    · exact Except.noConfusion h
  · intro e h
    unfold b02SetComponent at h
    split at h
    · injection h with h1
      rw [← h1]
    · split at h
      · injection h with h1
        rw [← h1]
      · exact Except.noConfusion h
  · intro e h
    unfold b02Insert at h
    split at h
    · injection h with h1
      rw [← h1]
    · split at h
      · injection h with h1
        rw [← h1]
      · exact Except.noConfusion h
  · intro e h
    unfold b02Append at h
    split at h
    · injection h with h1
      rw [← h1]
    · exact Except.noConfusion h
  · intro e h
    unfold b02Remove at h
    split at h
    · injection h with h1
      rw [← h1]
    · exact Except.noConfusion h

/-- Witness for C8: a concrete out-of-range setComponent fails and the
carried state is the untouched receiver. -/
theorem claim8_witness :
    b02SetComponent ⟨defaultDelimiter, ['x']⟩ 5 ['y'] =
      .error (.illegalArgument, ⟨defaultDelimiter, ['x']⟩) ∧
    (NameErr.illegalArgument, (⟨defaultDelimiter, ['x']⟩ : B02State)).2 =
      (⟨defaultDelimiter, ['x']⟩ : B02State) :=
  ⟨by rfl,
    (claim8_failure_atomicity ⟨defaultDelimiter, ['x']⟩ 5 ['y']).2.1
      (.illegalArgument, ⟨defaultDelimiter, ['x']⟩) (by rfl)⟩

theorem validIndexB06_read_iff (count i : Nat) :
    validIndexB06 count i false = true ↔ i < count := by
  unfold validIndexB06
  by_cases h : count = 0
  · subst h
    simp
  · simp [h]
    omega

theorem validIndexB06_insert_iff (count i : Nat) :
    validIndexB06 count i true = true ↔ i ≤ count := by
  unfold validIndexB06
  simp

theorem joinD_snoc (d : Char) (c : List Char) :
    ∀ cs : List (List Char), cs ≠ [] →
      joinD d (cs ++ [c]) = joinD d cs ++ d :: c := by
  intro cs
  induction cs with
  | nil => intro h; exact absurd rfl h
  | cons c1 rest ih =>
    intro _
    cases rest with
    | nil => simp [joinD]
    | cons c2 rest2 =>
      have hih := ih (by simp)
      rw [List.cons_append] at hih
      simp only [List.cons_append, joinD, List.append_eq]
      rw [hih]
      simp

theorem strName_components_join (d : Char) (hd : d ≠ escapeCharacter)
    (cs : List (List Char)) (hm : ∀ x ∈ cs, properlyMasked d x = true)
    (hne1 : cs ≠ [[]]) :
    StrName.components ⟨d, joinD d cs, cs.length⟩ = cs := by
  unfold StrName.components
  exact parse_joinD d hd cs
    (fun x hx => (properlyMasked_iff_Masked d x).mp (hm x hx)) hne1

theorem arraySet_ok (d : Char) (hd : d ≠ escapeCharacter)
    (cs : List (List Char)) (hm : ∀ x ∈ cs, properlyMasked d x = true)
    (hne0 : cs ≠ []) (i : Nat) (c : List Char) (hi : i < cs.length)
    (hc : properlyMasked d c = true) :
    ArrayName.setComponent ⟨d, cs⟩ i c = .ok ⟨d, setAt cs i c⟩ := by
  have hv : validIndexB06 cs.length i false = true :=
    (validIndexB06_read_iff _ _).mpr hi
  have hlen : (setAt cs i c).length = cs.length := length_setAt cs i c
  have hmask : ∀ x ∈ setAt cs i c, properlyMasked d x = true := by
    intro x hx
    rcases mem_setAt cs i c x hx with h | h
    · exact h ▸ hc
    · exact hm x h
  have hne2 : setAt cs i c ≠ [] := by
    intro h
    rw [h] at hlen
    exact hne0 (List.length_eq_zero.mp hlen.symm)
  have hnew : mkArrayName (setAt cs i c) d = .ok ⟨d, setAt cs i c⟩ :=
    mkArrayName_ok d hd _ hne2 hmask
  simp only [ArrayName.setComponent, ArrayName.getNoComponents, hv,
    Bool.true_eq_false, if_false, hc, hnew, ArrayName.getComponent,
    ArrayName.doGetComponent, hlen, getD_setAt_self cs i c hi]
  simp

theorem strSet_ok (d : Char) (hd : d ≠ escapeCharacter)
    (cs : List (List Char)) (hm : ∀ x ∈ cs, properlyMasked d x = true)
    (hne0 : cs ≠ []) (hne1 : cs ≠ [[]]) (i : Nat) (c : List Char)
    (hi : i < cs.length) (hc : properlyMasked d c = true)
    (hset : setAt cs i c ≠ [[]]) :
    StrName.setComponent ⟨d, joinD d cs, cs.length⟩ i c =
      .ok ⟨d, joinD d (setAt cs i c), cs.length⟩ := by
  have hv : validIndexB06 cs.length i false = true :=
    (validIndexB06_read_iff _ _).mpr hi
  have hlen : (setAt cs i c).length = cs.length := length_setAt cs i c
  have hmask : ∀ x ∈ setAt cs i c, properlyMasked d x = true := by
    intro x hx
    rcases mem_setAt cs i c x hx with h | h
    · exact h ▸ hc
    · exact hm x h
  have hcomp : StrName.components ⟨d, joinD d cs, cs.length⟩ = cs :=
    strName_components_join d hd cs hm hne1
  have hnew : mkStrName (joinD d (setAt cs i c)) d =
      .ok ⟨d, joinD d (setAt cs i c), (setAt cs i c).length⟩ :=
    mkStrName_join d hd _ hmask hset
  have hcomp2 : StrName.components
      ⟨d, joinD d (setAt cs i c), (setAt cs i c).length⟩ = setAt cs i c :=
    strName_components_join d hd _ hmask hset
  rw [hlen] at hnew hcomp2
  simp only [StrName.setComponent, StrName.getNoComponents, hv,
    Bool.true_eq_false, if_false, hc, hcomp, hnew, hlen, StrName.getComponent,
    StrName.doGetComponent, hcomp2]
  simpa using getD_setAt_self cs i c hi

theorem arrayInsert_ok (d : Char) (hd : d ≠ escapeCharacter)
    (cs : List (List Char)) (hm : ∀ x ∈ cs, properlyMasked d x = true)
    (i : Nat) (c : List Char) (hi : i ≤ cs.length)
    (hc : properlyMasked d c = true) :
    ArrayName.insert ⟨d, cs⟩ i c = .ok ⟨d, insertAt cs i c⟩ := by
  have hv : validIndexB06 cs.length i true = true :=
    (validIndexB06_insert_iff _ _).mpr hi
  have hlen : (insertAt cs i c).length = cs.length + 1 := length_insertAt cs i c hi
  have hmask : ∀ x ∈ insertAt cs i c, properlyMasked d x = true := by
    intro x hx
    rcases mem_insertAt cs i c x hx with h | h
    · exact h ▸ hc
    · exact hm x h
  have hne2 : insertAt cs i c ≠ [] := by
    intro h
    rw [h] at hlen
    simp at hlen
  have hnew : mkArrayName (insertAt cs i c) d = .ok ⟨d, insertAt cs i c⟩ :=
    mkArrayName_ok d hd _ hne2 hmask
  have hv2 : validIndexB06 (cs.length + 1) i false = true :=
    (validIndexB06_read_iff _ _).mpr (by omega)
  simp only [ArrayName.insert, ArrayName.getNoComponents, hv,
    Bool.true_eq_false, if_false, hc, hnew, hlen, hv2, ArrayName.getComponent,
    ArrayName.doGetComponent, getD_insertAt_self cs i c hi]
  simp

theorem strInsert_ok (d : Char) (hd : d ≠ escapeCharacter)
    (cs : List (List Char)) (hm : ∀ x ∈ cs, properlyMasked d x = true)
    (hne0 : cs ≠ []) (hne1 : cs ≠ [[]]) (i : Nat) (c : List Char)
    (hi : i ≤ cs.length) (hc : properlyMasked d c = true) :
    StrName.insert ⟨d, joinD d cs, cs.length⟩ i c =
      .ok ⟨d, joinD d (insertAt cs i c), cs.length + 1⟩ := by
  have hv : validIndexB06 cs.length i true = true :=
    (validIndexB06_insert_iff _ _).mpr hi
  have hlen : (insertAt cs i c).length = cs.length + 1 := length_insertAt cs i c hi
  have hmask : ∀ x ∈ insertAt cs i c, properlyMasked d x = true := by
    intro x hx
    rcases mem_insertAt cs i c x hx with h | h
    · exact h ▸ hc
    · exact hm x h
  have hne2 : insertAt cs i c ≠ [[]] := by
    intro h
    have h1 : (insertAt cs i c).length = 1 := by rw [h]; rfl
    rw [hlen] at h1
    exact hne0 (List.length_eq_zero.mp (by omega))
  have hcomp : StrName.components ⟨d, joinD d cs, cs.length⟩ = cs :=
    strName_components_join d hd cs hm hne1
  have hnew : mkStrName (joinD d (insertAt cs i c)) d =
      .ok ⟨d, joinD d (insertAt cs i c), (insertAt cs i c).length⟩ :=
    mkStrName_join d hd _ hmask hne2
  have hcomp2 : StrName.components
      ⟨d, joinD d (insertAt cs i c), (insertAt cs i c).length⟩ =
      insertAt cs i c :=
    strName_components_join d hd _ hmask hne2
  have hv2 : validIndexB06 (cs.length + 1) i false = true :=
    (validIndexB06_read_iff _ _).mpr (by omega)
  rw [hlen] at hnew hcomp2
  simp only [StrName.insert, StrName.getNoComponents, hv, Bool.true_eq_false,
    if_false, hc, hcomp, hnew, hlen, hv2, StrName.getComponent,
    StrName.doGetComponent, hcomp2]
  simpa using getD_insertAt_self cs i c hi

theorem arrayAppend_err (d : Char) (cs : List (List Char)) (c : List Char)
    (hc : properlyMasked d c = false) :
    ArrayName.append ⟨d, cs⟩ c = .error .illegalArgument := by
  simp [ArrayName.append, hc]

theorem strAppend_err (d : Char) (s : List Char) (k : Nat) (c : List Char)
    (hc : properlyMasked d c = false) :
    StrName.append ⟨d, s, k⟩ c = .error .illegalArgument := by
  simp [StrName.append, hc]

theorem arrayAppend_ok (d : Char) (hd : d ≠ escapeCharacter)
    (cs : List (List Char)) (hm : ∀ x ∈ cs, properlyMasked d x = true)
    (c : List Char) (hc : properlyMasked d c = true) :
    ArrayName.append ⟨d, cs⟩ c = .ok ⟨d, cs ++ [c]⟩ := by
  have hlen : (cs ++ [c]).length = cs.length + 1 := by simp
  have hmask : ∀ x ∈ cs ++ [c], properlyMasked d x = true := by
    intro x hx
    rcases List.mem_append.mp hx with h | h
    · exact hm x h
    · simp at h
      exact h ▸ hc
  have hnew : mkArrayName (cs ++ [c]) d = .ok ⟨d, cs ++ [c]⟩ :=
    mkArrayName_ok d hd _ (by simp) hmask
  have hv2 : validIndexB06 (cs.length + 1) cs.length false = true :=
    (validIndexB06_read_iff _ _).mpr (by omega)
  simp only [ArrayName.append, ArrayName.getNoComponents, hc, hnew, hlen, hv2,
    ArrayName.getComponent, ArrayName.doGetComponent, getD_append_self cs c]
  simp

theorem strAppend_ok (d : Char) (hd : d ≠ escapeCharacter)
    (cs : List (List Char)) (hm : ∀ x ∈ cs, properlyMasked d x = true)
    (hne0 : cs ≠ []) (c : List Char) (hc : properlyMasked d c = true) :
    StrName.append ⟨d, joinD d cs, cs.length⟩ c =
      .ok ⟨d, joinD d (cs ++ [c]), cs.length + 1⟩ := by
  have hlen0 : cs.length ≠ 0 := fun h => hne0 (List.length_eq_zero.mp h)
  have hlen : (cs ++ [c]).length = cs.length + 1 := by simp
  have hmask : ∀ x ∈ cs ++ [c], properlyMasked d x = true := by
    intro x hx
    rcases List.mem_append.mp hx with h | h
    · exact hm x h
    · simp at h
      exact h ▸ hc
  have hne2 : cs ++ [c] ≠ [[]] := by
    intro h
    have h1 : (cs ++ [c]).length = 1 := by rw [h]; rfl
    simp at h1
    exact hne0 h1
  have hsnoc : joinD d cs ++ d :: c = joinD d (cs ++ [c]) :=
    (joinD_snoc d c cs hne0).symm
  have hnew : mkStrName (joinD d (cs ++ [c])) d =
      .ok ⟨d, joinD d (cs ++ [c]), (cs ++ [c]).length⟩ :=
    mkStrName_join d hd _ hmask hne2
  have hcomp2 : StrName.components
      ⟨d, joinD d (cs ++ [c]), (cs ++ [c]).length⟩ = cs ++ [c] :=
    strName_components_join d hd _ hmask hne2
  rw [hlen] at hnew hcomp2
  have hv2 : validIndexB06 (cs.length + 1) cs.length false = true :=
    (validIndexB06_read_iff _ _).mpr (by omega)
  simp only [StrName.append, StrName.getNoComponents, hc, hlen0,
    Bool.true_eq_false, if_false, hsnoc, hnew, hv2, StrName.getComponent,
    StrName.doGetComponent, hcomp2]
  simp

theorem arrayRemove_ok (d : Char) (hd : d ≠ escapeCharacter)
    (cs : List (List Char)) (hm : ∀ x ∈ cs, properlyMasked d x = true)
    (i : Nat) (hi : i < cs.length) (h0 : removeAt cs i ≠ []) :
    ArrayName.remove ⟨d, cs⟩ i = .ok ⟨d, removeAt cs i⟩ := by
  have hv : validIndexB06 cs.length i false = true :=
    (validIndexB06_read_iff _ _).mpr hi
  have hlen : (removeAt cs i).length = cs.length - 1 := length_removeAt cs i hi
  have hmask : ∀ x ∈ removeAt cs i, properlyMasked d x = true :=
    fun x hx => hm x (mem_removeAt cs i x hx)
  have hnew : mkArrayName (removeAt cs i) d = .ok ⟨d, removeAt cs i⟩ :=
    mkArrayName_ok d hd _ h0 hmask
  simp only [ArrayName.remove, ArrayName.getNoComponents, hv,
    Bool.true_eq_false, if_false, hnew, hlen]
  simp

theorem arrayRemove_err (d : Char) (hd : d ≠ escapeCharacter)
    (cs : List (List Char)) (i : Nat) (hi : i < cs.length)
    (h0 : removeAt cs i = []) :
    ArrayName.remove ⟨d, cs⟩ i = .error .illegalArgument := by
  have hv : validIndexB06 cs.length i false = true :=
    (validIndexB06_read_iff _ _).mpr hi
  have hmk : mkArrayName (removeAt cs i) d = .error .illegalArgument := by
    rw [h0]
    simp [mkArrayName, hd]
  simp only [ArrayName.remove, ArrayName.getNoComponents, hv,
    Bool.true_eq_false, if_false, hmk]

theorem strRemove_ok (d : Char) (hd : d ≠ escapeCharacter)
    (cs : List (List Char)) (hm : ∀ x ∈ cs, properlyMasked d x = true)
    (hne1 : cs ≠ [[]]) (i : Nat) (hi : i < cs.length)
    (h0 : removeAt cs i ≠ []) (h1 : removeAt cs i ≠ [[]]) :
    StrName.remove ⟨d, joinD d cs, cs.length⟩ i =
      .ok ⟨d, joinD d (removeAt cs i), cs.length - 1⟩ := by
  have hv : validIndexB06 cs.length i false = true :=
    (validIndexB06_read_iff _ _).mpr hi
  have hlen : (removeAt cs i).length = cs.length - 1 := length_removeAt cs i hi
  have hmask : ∀ x ∈ removeAt cs i, properlyMasked d x = true :=
    fun x hx => hm x (mem_removeAt cs i x hx)
  have hcomp : StrName.components ⟨d, joinD d cs, cs.length⟩ = cs :=
    strName_components_join d hd cs hm hne1
  have hnew : mkStrName (joinD d (removeAt cs i)) d =
      .ok ⟨d, joinD d (removeAt cs i), (removeAt cs i).length⟩ :=
    mkStrName_join d hd _ hmask h1
  rw [hlen] at hnew
  simp only [StrName.remove, StrName.getNoComponents, hv, Bool.true_eq_false,
    if_false, hcomp, hnew]
  simp

theorem arrayClone_ok (d : Char) (hd : d ≠ escapeCharacter)
    (cs : List (List Char)) (hm : ∀ x ∈ cs, properlyMasked d x = true)
    (hne0 : cs ≠ []) :
    ArrayName.clone ⟨d, cs⟩ = .ok ⟨d, cs⟩ := by
  have hmk := mkArrayName_ok d hd cs hne0 hm
  have heq : isEqualName d cs d cs = true :=
    (isEqualName_iff d d cs cs).mpr ⟨rfl, rfl⟩
  simp [ArrayName.clone, hmk, heq]

theorem strClone_ok (d : Char) (hd : d ≠ escapeCharacter)
    (cs : List (List Char)) (hm : ∀ x ∈ cs, properlyMasked d x = true)
    (hne1 : cs ≠ [[]]) :
    StrName.clone ⟨d, joinD d cs, cs.length⟩ =
      .ok ⟨d, joinD d cs, cs.length⟩ := by
  have hmk := mkStrName_join d hd cs hm hne1
  have hcomp : StrName.components ⟨d, joinD d cs, cs.length⟩ = cs :=
    strName_components_join d hd cs hm hne1
  have heq : isEqualName d cs d cs = true :=
    (isEqualName_iff d d cs cs).mpr ⟨rfl, rfl⟩
  simp [StrName.clone, hmk, hcomp, heq]

theorem masked_snoc (d : Char) {cs : List (List Char)} {c : List Char}
    (hm : ∀ x ∈ cs, properlyMasked d x = true)
    (hc : properlyMasked d c = true) :
    ∀ x ∈ cs ++ [c], properlyMasked d x = true := by
  intro x hx
  rcases List.mem_append.mp hx with h | h
  · exact hm x h
  · simp at h
    exact h ▸ hc

theorem snoc_ne_single_nil {cs : List (List Char)} {c : List Char}
    (hne0 : cs ≠ []) : cs ++ [c] ≠ [[]] := by
  intro h
  have h1 : (cs ++ [c]).length = 1 := by rw [h]; rfl
  simp at h1
  exact hne0 h1

theorem arrayAppendAll_eq (d : Char) (hd : d ≠ escapeCharacter) :
    ∀ (vcs cs : List (List Char)), (∀ x ∈ cs, properlyMasked d x = true) →
      cs ≠ [] →
      ArrayName.appendAll ⟨d, cs⟩ vcs =
        if vcs.all (fun x => properlyMasked d x) then .ok ⟨d, cs ++ vcs⟩
        else .error .illegalArgument := by
  intro vcs
  induction vcs with
  | nil =>
    intro cs hm hne0
    simp [ArrayName.appendAll]
  | cons c rest ih =>
    intro cs hm hne0
    by_cases hc : properlyMasked d c = true
    · have happ := arrayAppend_ok d hd cs hm c hc
      simp only [ArrayName.appendAll, happ]
      rw [ih (cs ++ [c]) (masked_snoc d hm hc) (by simp)]
      simp [hc, List.append_assoc]
    · have hcf : properlyMasked d c = false := by simpa using hc
      have happ := arrayAppend_err d cs c hcf
      simp only [ArrayName.appendAll, happ]
      simp [hcf]

theorem strAppendAll_eq (d : Char) (hd : d ≠ escapeCharacter) :
    ∀ (vcs cs : List (List Char)), (∀ x ∈ cs, properlyMasked d x = true) →
      cs ≠ [] → cs ≠ [[]] →
      StrName.appendAll ⟨d, joinD d cs, cs.length⟩ vcs =
        if vcs.all (fun x => properlyMasked d x) then
          .ok ⟨d, joinD d (cs ++ vcs), (cs ++ vcs).length⟩
        else .error .illegalArgument := by
  intro vcs
  induction vcs with
  | nil =>
    intro cs hm hne0 hne1
    simp [StrName.appendAll]
  | cons c rest ih =>
    intro cs hm hne0 hne1
    by_cases hc : properlyMasked d c = true
    · have happ := strAppend_ok d hd cs hm hne0 c hc
      have hlen : cs.length + 1 = (cs ++ [c]).length := by simp
      rw [hlen] at happ
      simp only [StrName.appendAll, happ]
      rw [ih (cs ++ [c]) (masked_snoc d hm hc) (by simp)
        (snoc_ne_single_nil hne0)]
      simp [hc, List.append_assoc]
    · have hcf : properlyMasked d c = false := by simpa using hc
      have happ := strAppend_err d (joinD d cs) cs.length c hcf
      simp only [StrName.appendAll, happ]
      simp [hcf]

theorem arrayConcat_eq (d : Char) (hd : d ≠ escapeCharacter)
    (cs : List (List Char)) (hm : ∀ x ∈ cs, properlyMasked d x = true)
    (hne0 : cs ≠ []) (v : NameView) :
    ArrayName.concat ⟨d, cs⟩ v =
      if v.2.length = 0 then .ok ⟨d, cs⟩
      else if v.2.all (fun x => properlyMasked d x) then .ok ⟨d, cs ++ v.2⟩
      else .error .illegalArgument := by
  have hclone := arrayClone_ok d hd cs hm hne0
  by_cases h0 : v.2.length = 0
  · simp [ArrayName.concat, h0, hclone]
  · have hall := arrayAppendAll_eq d hd v.2 cs hm hne0
    simp only [ArrayName.concat, if_neg h0, hclone, hall]
    by_cases ha : v.2.all (fun x => properlyMasked d x) = true
    · simp [ha, ArrayName.getNoComponents]
    · have haf : v.2.all (fun x => properlyMasked d x) = false := by
        simpa using ha
      simp [haf]

theorem strConcat_eq (d : Char) (hd : d ≠ escapeCharacter)
    (cs : List (List Char)) (hm : ∀ x ∈ cs, properlyMasked d x = true)
    (hne0 : cs ≠ []) (hne1 : cs ≠ [[]]) (v : NameView) :
    StrName.concat ⟨d, joinD d cs, cs.length⟩ v =
      if v.2.length = 0 then .ok ⟨d, joinD d cs, cs.length⟩
      else if v.2.all (fun x => properlyMasked d x) then
        .ok ⟨d, joinD d (cs ++ v.2), (cs ++ v.2).length⟩
      else .error .illegalArgument := by
  have hclone := strClone_ok d hd cs hm hne1
  by_cases h0 : v.2.length = 0
  · simp [StrName.concat, h0, hclone]
  · have hall := strAppendAll_eq d hd v.2 cs hm hne0 hne1
    simp only [StrName.concat, if_neg h0, hclone, hall]
    by_cases ha : v.2.all (fun x => properlyMasked d x) = true
    · simp [ha, StrName.getNoComponents]
    · have haf : v.2.all (fun x => properlyMasked d x) = false := by
        simpa using ha
      simp [haf]

theorem arraySet_errIdx (d : Char) (cs : List (List Char)) (i : Nat)
    (c : List Char) (hv : validIndexB06 cs.length i false = false) :
    ArrayName.setComponent ⟨d, cs⟩ i c = .error .illegalArgument := by
  simp [ArrayName.setComponent, ArrayName.getNoComponents, hv]

theorem strSet_errIdx (d : Char) (s : List Char) (k i : Nat) (c : List Char)
    (hv : validIndexB06 k i false = false) :
    StrName.setComponent ⟨d, s, k⟩ i c = .error .illegalArgument := by
  simp [StrName.setComponent, StrName.getNoComponents, hv]

theorem arraySet_errMask (d : Char) (cs : List (List Char)) (i : Nat)
    (c : List Char) (hv : validIndexB06 cs.length i false = true)
    (hc : properlyMasked d c = false) :
    ArrayName.setComponent ⟨d, cs⟩ i c = .error .illegalArgument := by
  simp [ArrayName.setComponent, ArrayName.getNoComponents, hv, hc]

theorem strSet_errMask (d : Char) (s : List Char) (k i : Nat) (c : List Char)
    (hv : validIndexB06 k i false = true)
    (hc : properlyMasked d c = false) :
    StrName.setComponent ⟨d, s, k⟩ i c = .error .illegalArgument := by
  simp [StrName.setComponent, StrName.getNoComponents, hv, hc]

theorem arrayInsert_errIdx (d : Char) (cs : List (List Char)) (i : Nat)
    (c : List Char) (hv : validIndexB06 cs.length i true = false) :
    ArrayName.insert ⟨d, cs⟩ i c = .error .illegalArgument := by
  simp [ArrayName.insert, ArrayName.getNoComponents, hv]

theorem strInsert_errIdx (d : Char) (s : List Char) (k i : Nat) (c : List Char)
    (hv : validIndexB06 k i true = false) :
    StrName.insert ⟨d, s, k⟩ i c = .error .illegalArgument := by
  simp [StrName.insert, StrName.getNoComponents, hv]

theorem arrayInsert_errMask (d : Char) (cs : List (List Char)) (i : Nat)
    (c : List Char) (hv : validIndexB06 cs.length i true = true)
    (hc : properlyMasked d c = false) :
    ArrayName.insert ⟨d, cs⟩ i c = .error .illegalArgument := by
  simp [ArrayName.insert, ArrayName.getNoComponents, hv, hc]

theorem strInsert_errMask (d : Char) (s : List Char) (k i : Nat) (c : List Char)
    (hv : validIndexB06 k i true = true)
    (hc : properlyMasked d c = false) :
    StrName.insert ⟨d, s, k⟩ i c = .error .illegalArgument := by
  simp [StrName.insert, StrName.getNoComponents, hv, hc]

theorem arrayRemove_errIdx (d : Char) (cs : List (List Char)) (i : Nat)
    (hv : validIndexB06 cs.length i false = false) :
    ArrayName.remove ⟨d, cs⟩ i = .error .illegalArgument := by
  simp [ArrayName.remove, ArrayName.getNoComponents, hv]

theorem strRemove_errIdx (d : Char) (s : List Char) (k i : Nat)
    (hv : validIndexB06 k i false = false) :
    StrName.remove ⟨d, s, k⟩ i = .error .illegalArgument := by
  simp [StrName.remove, StrName.getNoComponents, hv]

/-- C2 counterexample: the single properly masked component list containing
one empty component.  The array representation stores it as one component;
the flat-string representation joins it to the empty string, which the
tokenizer maps back to zero components — the two Names built from the same
component list disagree on getNoComponents and isEmpty. -/
theorem claim2_counterexample :
    (mkArrayName [[]] defaultDelimiter).map ArrayName.getNoComponents =
      .ok 1 ∧
    (mkStrName (joinD defaultDelimiter [[]]) defaultDelimiter).map
      StrName.getNoComponents = .ok 0 ∧
    (mkArrayName [[]] defaultDelimiter).map ArrayName.isEmpty = .ok false ∧
    (mkStrName (joinD defaultDelimiter [[]]) defaultDelimiter).map
      StrName.isEmpty = .ok true :=
  ⟨by rfl, by rfl, by rfl, by rfl⟩

/-- C2 (amended): for every properly masked component list other than the
empty list (which only the flat-string constructor accepts) and the single
empty component (the counterexample), the two representations built from the
same components are observably equivalent: both constructions succeed, all
queries (view, count, isEmpty, getComponent, asString, asDataString,
isEqual) agree, and insert, append and concat produce Except results with
identical observable views; setComponent and remove also agree whenever the
successor component list is not empty and not the single empty component
(in those excluded cases the flat-string side collapses the successor to
zero components and the two sides diverge). -/
theorem claim2_representation_equivalence (d : Char) (cs : List (List Char))
    (hd : d ≠ escapeCharacter) (hm : ∀ x ∈ cs, properlyMasked d x = true)
    (hne0 : cs ≠ []) (hne1 : cs ≠ [[]]) :
    mkArrayName cs d = .ok ⟨d, cs⟩ ∧
    mkStrName (joinD d cs) d = .ok ⟨d, joinD d cs, cs.length⟩ ∧
    ArrayName.view ⟨d, cs⟩ = StrName.view ⟨d, joinD d cs, cs.length⟩ ∧
    ArrayName.getNoComponents ⟨d, cs⟩ =
      StrName.getNoComponents ⟨d, joinD d cs, cs.length⟩ ∧
    ArrayName.isEmpty ⟨d, cs⟩ = StrName.isEmpty ⟨d, joinD d cs, cs.length⟩ ∧
    (∀ i, ArrayName.getComponent ⟨d, cs⟩ i =
      StrName.getComponent ⟨d, joinD d cs, cs.length⟩ i) ∧
    (∀ d2, ArrayName.asString ⟨d, cs⟩ d2 =
      StrName.asString ⟨d, joinD d cs, cs.length⟩ d2) ∧
    ArrayName.asDataString ⟨d, cs⟩ =
      StrName.asDataString ⟨d, joinD d cs, cs.length⟩ ∧
    (∀ v, ArrayName.isEqual ⟨d, cs⟩ v =
      StrName.isEqual ⟨d, joinD d cs, cs.length⟩ v) ∧
    (∀ i c, setAt cs i c ≠ [[]] →
      (ArrayName.setComponent ⟨d, cs⟩ i c).map ArrayName.view =
        (StrName.setComponent ⟨d, joinD d cs, cs.length⟩ i c).map
          StrName.view) ∧
    (∀ i c, (ArrayName.insert ⟨d, cs⟩ i c).map ArrayName.view =
      (StrName.insert ⟨d, joinD d cs, cs.length⟩ i c).map StrName.view) ∧
    (∀ c, (ArrayName.append ⟨d, cs⟩ c).map ArrayName.view =
      (StrName.append ⟨d, joinD d cs, cs.length⟩ c).map StrName.view) ∧
    (∀ i, removeAt cs i ≠ [] → removeAt cs i ≠ [[]] →
      (ArrayName.remove ⟨d, cs⟩ i).map ArrayName.view =
        (StrName.remove ⟨d, joinD d cs, cs.length⟩ i).map StrName.view) ∧
    (∀ v, (ArrayName.concat ⟨d, cs⟩ v).map ArrayName.view =
      (StrName.concat ⟨d, joinD d cs, cs.length⟩ v).map StrName.view) := by
  have hcomp : StrName.components ⟨d, joinD d cs, cs.length⟩ = cs :=
    strName_components_join d hd cs hm hne1
  refine ⟨mkArrayName_ok d hd cs hne0 hm, mkStrName_join d hd cs hm hne1,
    ?_, rfl, rfl, ?_, ?_, ?_, ?_, ?_, ?_, ?_, ?_, ?_⟩
  · simp [ArrayName.view, StrName.view, hcomp]
  · intro i
    simp only [ArrayName.getComponent, StrName.getComponent,
      ArrayName.getNoComponents, StrName.getNoComponents,
      ArrayName.doGetComponent, StrName.doGetComponent, hcomp]
  · intro d2
    simp only [ArrayName.asString, StrName.asString, hcomp]
  · simp only [ArrayName.asDataString, StrName.asDataString, hcomp]
  · intro v
    simp only [ArrayName.isEqual, StrName.isEqual, hcomp]
  · intro i c hset
    by_cases hv : validIndexB06 cs.length i false = true
    · by_cases hc : properlyMasked d c = true
      · have hi : i < cs.length := (validIndexB06_read_iff _ _).mp hv
        have hmask : ∀ x ∈ setAt cs i c, Masked d x := by
          intro x hx
          refine (properlyMasked_iff_Masked d x).mp ?_
          rcases mem_setAt cs i c x hx with h | h
          · exact h ▸ hc
          · exact hm x h
        rw [arraySet_ok d hd cs hm hne0 i c hi hc,
          strSet_ok d hd cs hm hne0 hne1 i c hi hc hset]
        simp [Except.map, ArrayName.view, StrName.view, StrName.components,
          parse_joinD d hd _ hmask hset]
      · have hcf : properlyMasked d c = false := by simpa using hc
        rw [arraySet_errMask d cs i c hv hcf,
          strSet_errMask d (joinD d cs) cs.length i c hv hcf]
        rfl
    · have hvf : validIndexB06 cs.length i false = false := by simpa using hv
      rw [arraySet_errIdx d cs i c hvf,
        strSet_errIdx d (joinD d cs) cs.length i c hvf]
      rfl
  · intro i c
    by_cases hv : validIndexB06 cs.length i true = true
    · by_cases hc : properlyMasked d c = true
      · have hi : i ≤ cs.length := (validIndexB06_insert_iff _ _).mp hv
        have hne2 : insertAt cs i c ≠ [[]] := by
          intro h
          have h1 : (insertAt cs i c).length = 1 := by rw [h]; rfl
          rw [length_insertAt cs i c hi] at h1
          exact hne0 (List.length_eq_zero.mp (by omega))
        have hmask : ∀ x ∈ insertAt cs i c, Masked d x := by
          intro x hx
          refine (properlyMasked_iff_Masked d x).mp ?_
          rcases mem_insertAt cs i c x hx with h | h
          · exact h ▸ hc
          · exact hm x h
        rw [arrayInsert_ok d hd cs hm i c hi hc,
          strInsert_ok d hd cs hm hne0 hne1 i c hi hc]
        simp [Except.map, ArrayName.view, StrName.view, StrName.components,
          parse_joinD d hd _ hmask hne2]
      · have hcf : properlyMasked d c = false := by simpa using hc
        rw [arrayInsert_errMask d cs i c hv hcf,
          strInsert_errMask d (joinD d cs) cs.length i c hv hcf]
        rfl
    · have hvf : validIndexB06 cs.length i true = false := by simpa using hv
      rw [arrayInsert_errIdx d cs i c hvf,
        strInsert_errIdx d (joinD d cs) cs.length i c hvf]
      rfl
  · intro c
    by_cases hc : properlyMasked d c = true
    · have hmask : ∀ x ∈ cs ++ [c], Masked d x := fun x hx =>
        (properlyMasked_iff_Masked d x).mp (masked_snoc d hm hc x hx)
      rw [arrayAppend_ok d hd cs hm c hc, strAppend_ok d hd cs hm hne0 c hc]
      simp [Except.map, ArrayName.view, StrName.view, StrName.components,
        parse_joinD d hd _ hmask (snoc_ne_single_nil hne0)]
    · have hcf : properlyMasked d c = false := by simpa using hc
      rw [arrayAppend_err d cs c hcf,
        strAppend_err d (joinD d cs) cs.length c hcf]
      rfl
  · intro i h0 h1
    by_cases hv : validIndexB06 cs.length i false = true
    · have hi : i < cs.length := (validIndexB06_read_iff _ _).mp hv
      have hmask : ∀ x ∈ removeAt cs i, Masked d x := fun x hx =>
        (properlyMasked_iff_Masked d x).mp (hm x (mem_removeAt cs i x hx))
      rw [arrayRemove_ok d hd cs hm i hi h0,
        strRemove_ok d hd cs hm hne1 i hi h0 h1]
      simp [Except.map, ArrayName.view, StrName.view, StrName.components,
        parse_joinD d hd _ hmask h1]
    · have hvf : validIndexB06 cs.length i false = false := by simpa using hv
      rw [arrayRemove_errIdx d cs i hvf,
        strRemove_errIdx d (joinD d cs) cs.length i hvf]
      rfl
  · intro v
    rw [arrayConcat_eq d hd cs hm hne0 v, strConcat_eq d hd cs hm hne0 hne1 v]
    by_cases h0 : v.2.length = 0
    · simp [h0, Except.map, ArrayName.view, StrName.view, hcomp]
    · by_cases ha : v.2.all (fun x => properlyMasked d x) = true
      · have hmask : ∀ x ∈ cs ++ v.2, Masked d x := by
          intro x hx
          refine (properlyMasked_iff_Masked d x).mp ?_
          rcases List.mem_append.mp hx with h | h
          · exact hm x h
          · exact List.all_eq_true.mp ha x h
        have hne2 : cs ++ v.2 ≠ [[]] := by
          intro h
          have h1 : (cs ++ v.2).length = 1 := by rw [h]; rfl
          have h2 : 1 ≤ cs.length := List.length_pos.mpr hne0
          have h3 : 1 ≤ v.2.length := by omega
          simp at h1
          omega
        simp [h0, ha, Except.map, ArrayName.view, StrName.view,
          StrName.components, parse_joinD d hd _ hmask hne2]
      · have haf : v.2.all (fun x => properlyMasked d x) = false := by
          simpa using ha
        simp only [h0, haf, if_false, ite_false]
        rfl

/-- Witness for C2: append agrees on the two representations of a concrete
one-component name. -/
theorem claim2_witness :
    (ArrayName.append ⟨defaultDelimiter, [['a']]⟩ ['b']).map ArrayName.view =
      (StrName.append
        ⟨defaultDelimiter, joinD defaultDelimiter [['a']],
          List.length [['a']]⟩ ['b']).map StrName.view :=
  (claim2_representation_equivalence defaultDelimiter [['a']] (by decide)
    (by decide) (by decide) (by decide)).2.2.2.2.2.2.2.2.2.2.2.1 ['b']
